import Mathlib

/-!
Verification of the ASCII-art rendering core shared by the image tool
(`ascii_art_generator/main.py`) and the video/webcam tool
(`ascii_video_webcam/main.py`).

The pixel pipeline works on Python lists of lists of ints; intermediate
arithmetic is done on Python floats.  The embedding models pixel matrices as
`List (List ℤ)` and the intermediate arithmetic exactly over `ℚ`; Python's
`int(...)` (truncation toward zero) and `round(...)` (nearest, ties to even)
are modelled by `truncQ` and `pyRound`.  The float power `pow(val, gamma)`
has no rational closed form, so the renderer is parametrised by an abstract
`fpow : ℚ → ℚ → ℚ` standing for it; theorems that need facts about `pow`
(such as `pow(v, 1.0) = v`, exact also for IEEE floats) take them as
hypotheses on `fpow`.
-/

/-- A pixel matrix: list of rows of integer samples. -/
abbrev Mat := List (List ℤ)

/-- Python `int(q)`: truncation toward zero. -/
def truncQ (q : ℚ) : ℤ := if q < 0 then -⌊-q⌋ else ⌊q⌋

/-- Python 3 `round(q)`: nearest integer, ties go to the even integer. -/
def pyRound (q : ℚ) : ℤ :=
  let f := ⌊q⌋
  let r := q - (f : ℚ)
  if r < 1/2 then f else if 1/2 < r then f + 1 else if f % 2 = 0 then f else f + 1

/-- Read `m[y][x]` with default `0` (all modelled accesses are in bounds). -/
def getPix (m : Mat) (y x : ℕ) : ℤ := (m.getD y []).getD x 0

/-- Write `m[y][x] = v` (out-of-range indices leave the matrix unchanged). -/
def setPix (m : Mat) (y x : ℕ) (v : ℤ) : Mat := m.set y ((m.getD y []).set x v)

/-- The matrix is rectangular: every row has the width of the first row. -/
def Rect (m : Mat) : Prop := ∀ row ∈ m, row.length = (m.getD 0 []).length

/-- All samples lie in `[0, 255]`. -/
def BoundedM (m : Mat) : Prop := ∀ row ∈ m, ∀ v ∈ row, 0 ≤ v ∧ v ≤ 255

/-- Models Python `pow(v, 1.0) = v` (exact for IEEE floats as well);
used to instantiate the abstract float power at `gamma = 1`. -/
def powOne : ℚ → ℚ → ℚ := fun v _ => v

/-- The default palette `" .:-=+*#%@"` as a list of glyphs. -/
def defaultCharset : List Char := " .:-=+*#%@".data

namespace ImgTool

/-- Function `clamp` from `dither_pixels` in `ascii_art_generator/main.py`:
below 0 gives 0, above 255 gives 255, otherwise `int(v)`. -/
def clamp (v : ℚ) : ℤ := if v < 0 then 0 else if v > 255 then 255 else truncQ v

/-- The body of the double loop of `dither_pixels`: quantize `out[y][x]` and
diffuse the error to `(x+1,y)`, `(x-1,y+1)`, `(x,y+1)`, `(x+1,y+1)`. -/
def ditherBody (stp : ℚ) (w h : ℕ) (out : Mat) (y x : ℕ) : Mat :=
  let old : ℤ := getPix out y x
  let nw : ℚ := (pyRound ((old : ℚ) / stp) : ℚ) * stp
  let out1 := setPix out y x (clamp nw)
  let err : ℚ := (old : ℚ) - nw
  let out2 :=
    if x + 1 < w then
      setPix out1 y (x+1) (clamp ((getPix out1 y (x+1) : ℚ) + err * 7 / 16))
    else out1
  if y + 1 < h then
    let out3 :=
      if 1 ≤ x then
        setPix out2 (y+1) (x-1) (clamp ((getPix out2 (y+1) (x-1) : ℚ) + err * 3 / 16))
      else out2
    let out4 := setPix out3 (y+1) x (clamp ((getPix out3 (y+1) x : ℚ) + err * 5 / 16))
    if x + 1 < w then
      setPix out4 (y+1) (x+1) (clamp ((getPix out4 (y+1) (x+1) : ℚ) + err * 1 / 16))
    else out4
  else out2

/-- The raster-order double loop `for y in range(h): for x in range(w)`. -/
def ditherLoop (stp : ℚ) (w h : ℕ) (m : Mat) : Mat :=
  (List.range h).foldl
    (fun acc y => (List.range w).foldl (fun acc2 x => ditherBody stp w h acc2 y x) acc) m

/-- Transcription of `dither_pixels` from `ascii_art_generator/main.py`. -/
def dither_pixels (pixels : Mat) (levels : ℤ) : Mat :=
  let h := pixels.length
  let w := (pixels.getD 0 []).length
  if h = 0 ∨ w = 0 ∨ levels < 2 then pixels
  else ditherLoop (255 / ((levels : ℚ) - 1)) w h pixels

/-- Transcription of `resize_pixels` from `ascii_art_generator/main.py` (aspect factor 0.43). -/
def resize_pixels (pixels : Mat) (new_width : ℤ) : Except String Mat :=
  if new_width < 1 then .error "new_width minimal 1" else
  let orig_h := pixels.length
  let orig_w := if orig_h > 0 then (pixels.getD 0 []).length else 0
  if orig_w = 0 ∨ orig_h = 0 then .ok [] else
  let scale : ℚ := (new_width : ℚ) / (orig_w : ℚ)
  let new_height : ℕ := max 1 (truncQ ((orig_h : ℚ) * scale * (43/100))).toNat
  .ok ((List.range new_height).map (fun (y : ℕ) =>
    let src_y : ℕ := min (orig_h - 1) (truncQ ((y : ℚ) / (new_height : ℚ) * (orig_h : ℚ))).toNat
    (List.range new_width.toNat).map (fun (x : ℕ) =>
      let src_x : ℕ := min (orig_w - 1) (truncQ ((x : ℚ) / (new_width : ℚ) * (orig_w : ℚ))).toNat
      getPix pixels src_y src_x)))

/-- The per-sample intensity of `map_to_ascii` after normalisation, optional
inversion and optional gamma correction (`fpow` models `pow`). -/
def pixelVal (fpow : ℚ → ℚ → ℚ) (gamma : ℚ) (invert : Bool) (v : ℤ) : ℚ :=
  let val : ℚ := (v : ℚ) / 255
  let val2 := if invert then 1 - val else val
  if 0 < gamma then fpow val2 gamma else val2

/-- The palette index `map_to_ascii` assigns to a sample:
`int(val * (n-1))` clamped into `[0, n-1]`. -/
def pixelIdx (fpow : ℚ → ℚ → ℚ) (n : ℕ) (gamma : ℚ) (invert : Bool) (v : ℤ) : ℕ :=
  let idx : ℤ := truncQ (pixelVal fpow gamma invert v * ((n : ℚ) - 1))
  let idx2 : ℤ := if idx < 0 then 0 else idx
  let idx3 : ℤ := if (n : ℤ) ≤ idx2 then (n : ℤ) - 1 else idx2
  idx3.toNat

/-- Transcription of `map_to_ascii` from `ascii_art_generator/main.py`. -/
def map_to_ascii (fpow : ℚ → ℚ → ℚ) (pixels : Mat) (charset : List Char)
    (gamma : ℚ) (invert : Bool) (dither : Bool) : Except String (List String) :=
  if pixels.length = 0 then .ok [] else
  if charset.length < 2 then .error "charset minimal 2 karakter" else
  let work := if dither then dither_pixels pixels (charset.length : ℤ) else pixels
  .ok (work.map (fun row =>
    String.mk (row.map (fun v => charset.getD (pixelIdx fpow charset.length gamma invert v) ' '))))

end ImgTool

namespace VidTool

/-- Function `clamp` from `dither_pixels` in `ascii_video_webcam/main.py`. -/
def clamp (v : ℚ) : ℤ := if v < 0 then 0 else if v > 255 then 255 else truncQ v

/-- The body of the double loop of `dither_pixels` in
`ascii_video_webcam/main.py`. -/
def ditherBody (stp : ℚ) (w h : ℕ) (out : Mat) (y x : ℕ) : Mat :=
  let old : ℤ := getPix out y x
  let nw : ℚ := (pyRound ((old : ℚ) / stp) : ℚ) * stp
  let out1 := setPix out y x (clamp nw)
  let err : ℚ := (old : ℚ) - nw
  let out2 :=
    if x + 1 < w then
      setPix out1 y (x+1) (clamp ((getPix out1 y (x+1) : ℚ) + err * 7 / 16))
    else out1
  if y + 1 < h then
    let out3 :=
      if 1 ≤ x then
        setPix out2 (y+1) (x-1) (clamp ((getPix out2 (y+1) (x-1) : ℚ) + err * 3 / 16))
      else out2
    let out4 := setPix out3 (y+1) x (clamp ((getPix out3 (y+1) x : ℚ) + err * 5 / 16))
    if x + 1 < w then
      setPix out4 (y+1) (x+1) (clamp ((getPix out4 (y+1) (x+1) : ℚ) + err * 1 / 16))
    else out4
  else out2

/-- The raster-order double loop of the webcam tool's `dither_pixels`. -/
def ditherLoop (stp : ℚ) (w h : ℕ) (m : Mat) : Mat :=
  (List.range h).foldl
    (fun acc y => (List.range w).foldl (fun acc2 x => ditherBody stp w h acc2 y x) acc) m

/-- Transcription of `dither_pixels` from `ascii_video_webcam/main.py`. -/
def dither_pixels (pixels : Mat) (levels : ℤ) : Mat :=
  let h := pixels.length
  let w := (pixels.getD 0 []).length
  if h = 0 ∨ w = 0 ∨ levels < 2 then pixels
  else ditherLoop (255 / ((levels : ℚ) - 1)) w h pixels

/-- Transcription of `resize_pixels` from `ascii_video_webcam/main.py`, with the character
aspect ratio as a parameter (default 0.43 at the call sites). -/
def resize_pixels (pixels : Mat) (new_width : ℤ) (ratio : ℚ) : Except String Mat :=
  if new_width < 1 then .error "new_width minimal 1" else
  let orig_h := pixels.length
  let orig_w := if orig_h > 0 then (pixels.getD 0 []).length else 0
  if orig_w = 0 ∨ orig_h = 0 then .ok [] else
  let scale : ℚ := (new_width : ℚ) / (orig_w : ℚ)
  let new_height : ℕ := max 1 (truncQ ((orig_h : ℚ) * scale * ratio)).toNat
  .ok ((List.range new_height).map (fun (y : ℕ) =>
    let src_y : ℕ := min (orig_h - 1) (truncQ ((y : ℚ) / (new_height : ℚ) * (orig_h : ℚ))).toNat
    (List.range new_width.toNat).map (fun (x : ℕ) =>
      let src_x : ℕ := min (orig_w - 1) (truncQ ((x : ℚ) / (new_width : ℚ) * (orig_w : ℚ))).toNat
      getPix pixels src_y src_x)))

/-- Per-sample intensity of the webcam tool's `map_to_ascii`. -/
def pixelVal (fpow : ℚ → ℚ → ℚ) (gamma : ℚ) (invert : Bool) (v : ℤ) : ℚ :=
  let val : ℚ := (v : ℚ) / 255
  let val2 := if invert then 1 - val else val
  if 0 < gamma then fpow val2 gamma else val2

/-- Palette index assignment of the webcam tool's `map_to_ascii`. -/
def pixelIdx (fpow : ℚ → ℚ → ℚ) (n : ℕ) (gamma : ℚ) (invert : Bool) (v : ℤ) : ℕ :=
  let idx : ℤ := truncQ (pixelVal fpow gamma invert v * ((n : ℚ) - 1))
  let idx2 : ℤ := if idx < 0 then 0 else idx
  let idx3 : ℤ := if (n : ℤ) ≤ idx2 then (n : ℤ) - 1 else idx2
  idx3.toNat

/-- Transcription of `map_to_ascii` from `ascii_video_webcam/main.py`. -/
def map_to_ascii (fpow : ℚ → ℚ → ℚ) (pixels : Mat) (charset : List Char)
    (gamma : ℚ) (invert : Bool) (dither : Bool) : Except String (List String) :=
  if pixels.length = 0 then .ok [] else
  if charset.length < 2 then .error "charset minimal 2 karakter" else
  let work := if dither then dither_pixels pixels (charset.length : ℤ) else pixels
  .ok (work.map (fun row =>
    String.mk (row.map (fun v => charset.getD (pixelIdx fpow charset.length gamma invert v) ' '))))

end VidTool

namespace FSSpec

/-- The spec's clamp of a stored sample into `[0, 255]`; fractional values
are truncated toward zero like Python `int`, on which the spec is silent. -/
def clamp255 (v : ℚ) : ℤ := max 0 (min 255 (truncQ v))

/-- The spec's quantized value: `round(old/step) * step`. -/
def quantizeQ (stp : ℚ) (old : ℤ) : ℚ := (pyRound ((old : ℚ) / stp) : ℚ) * stp

/-- Add a fraction of the residual error to one neighbour, clamping
immediately upon assignment; a neighbour outside bounds is skipped. -/
def deposit (m : Mat) (inB : Prop) [Decidable inB] (y x : ℕ) (amt : ℚ) : Mat :=
  if inB then setPix m y x (clamp255 ((getPix m y x : ℚ) + amt)) else m

/-- One pixel of the spec's reference computation: write the clamped
quantized value, then add 7/16, 3/16, 5/16 and 1/16 of the residual to
`(x+1,y)`, `(x-1,y+1)`, `(x,y+1)` and `(x+1,y+1)` in that order. -/
def visit (stp : ℚ) (w h : ℕ) (m : Mat) (y x : ℕ) : Mat :=
  let old := getPix m y x
  let q := quantizeQ stp old
  let err : ℚ := (old : ℚ) - q
  let m1 := setPix m y x (clamp255 q)
  let m2 := deposit m1 (x + 1 < w) y (x+1) (7/16 * err)
  let m3 := deposit m2 (1 ≤ x ∧ y + 1 < h) (y+1) (x-1) (3/16 * err)
  let m4 := deposit m3 (y + 1 < h) (y+1) x (5/16 * err)
  deposit m4 (x + 1 < w ∧ y + 1 < h) (y+1) (x+1) (1/16 * err)

/-- Raster order: row-major, left to right, top to bottom. -/
def rasterOrder (w h : ℕ) : List (ℕ × ℕ) :=
  (List.range (h * w)).map (fun i => (i / w, i % w))

/-- The spec's reference dither: visit every pixel in raster order with
`step = 255 / (levels - 1)`. -/
def ditherRef (pixels : Mat) (levels : ℤ) : Mat :=
  let h := pixels.length
  let w := (pixels.getD 0 []).length
  let stp : ℚ := 255 / ((levels : ℚ) - 1)
  (rasterOrder w h).foldl (fun m p => visit stp w h m p.1 p.2) pixels

end FSSpec

theorem truncQ_nonneg_eq_floor (q : ℚ) (h : 0 ≤ q) : truncQ q = ⌊q⌋ := by
  simp [truncQ, not_lt.mpr h]

theorem truncQ_nonpos (q : ℚ) (h : q < 0) : truncQ q ≤ 0 := by
  have h1 : (0:ℤ) ≤ ⌊-q⌋ := Int.floor_nonneg.mpr (le_of_lt (neg_pos.mpr h))
  simp only [truncQ, if_pos h]
  omega

theorem clamp255_eq_clamp : FSSpec.clamp255 = ImgTool.clamp := by
  funext v
  unfold FSSpec.clamp255 ImgTool.clamp
  split_ifs with h0 h255
  · have h1 : truncQ v ≤ 0 := truncQ_nonpos v h0
    omega
  · have h1 : truncQ v = ⌊v⌋ := truncQ_nonneg_eq_floor v (not_lt.mp h0)
    have h2 : (255:ℤ) ≤ ⌊v⌋ := Int.le_floor.mpr (by exact_mod_cast le_of_lt h255)
    omega
  · have h1 : truncQ v = ⌊v⌋ := truncQ_nonneg_eq_floor v (not_lt.mp h0)
    have h2 : (0:ℤ) ≤ ⌊v⌋ := Int.floor_nonneg.mpr (not_lt.mp h0)
    have h3 : ⌊v⌋ ≤ 255 := by
      have h4 : ⌊v⌋ ≤ ⌊(255:ℚ)⌋ := Int.floor_le_floor (not_lt.mp h255)
      simpa using h4
    omega

theorem visit_eq_ditherBody (stp : ℚ) (w h : ℕ) (m : Mat) (y x : ℕ) :
    FSSpec.visit stp w h m y x = ImgTool.ditherBody stp w h m y x := by
  unfold FSSpec.visit ImgTool.ditherBody FSSpec.deposit FSSpec.quantizeQ
  rw [clamp255_eq_clamp]
  by_cases hx : x + 1 < w <;> by_cases hy : y + 1 < h <;> by_cases h1 : 1 ≤ x <;>
    simp [hx, hy, h1] <;> ring_nf

theorem rasterOrder_succ (w h : ℕ) (hw : 0 < w) :
    FSSpec.rasterOrder w (h+1) =
      FSSpec.rasterOrder w h ++ (List.range w).map (fun x => (h, x)) := by
  unfold FSSpec.rasterOrder
  rw [Nat.succ_mul, List.range_add, List.map_append, List.map_map]
  congr 1
  apply List.map_congr_left
  intro i hi
  have hiw : i < w := List.mem_range.mp hi
  have hdiv : (h * w + i) / w = h := by
    rw [Nat.mul_comm, Nat.mul_add_div hw, Nat.div_eq_of_lt hiw]
    omega
  have hmod : (h * w + i) % w = i := by
    rw [Nat.mul_comm, Nat.mul_add_mod, Nat.mod_eq_of_lt hiw]
  simp [Function.comp, hdiv, hmod]

theorem raster_foldl (f : Mat → ℕ → ℕ → Mat) (w : ℕ) (hw : 0 < w) :
    ∀ (h : ℕ) (m : Mat),
      (FSSpec.rasterOrder w h).foldl (fun m p => f m p.1 p.2) m =
      (List.range h).foldl
        (fun acc y => (List.range w).foldl (fun acc2 x => f acc2 y x) acc) m := by
  intro h
  induction h with
  | zero => intro m; simp [FSSpec.rasterOrder]
  | succ k ih =>
    intro m
    rw [rasterOrder_succ w k hw, List.foldl_append, List.range_succ, List.foldl_append, ih]
    simp [List.foldl_map]

/-- C1: for every non-empty rectangular pixel matrix with samples in
`[0,255]` and every `levels ≥ 2`, `dither_pixels` equals the spec's reference
computation: pixels visited in raster order, each quantized to
`round(old/step)·step` clamped to `[0,255]` with `step = 255/(levels-1)`,
and 7/16, 3/16, 5/16, 1/16 of the residual added to `(x+1,y)`, `(x-1,y+1)`,
`(x,y+1)`, `(x+1,y+1)`, clamped immediately, skipping out-of-bounds
neighbours. -/
theorem dither_matches_spec (pixels : Mat) (levels : ℤ)
    (hh : pixels ≠ []) (hw : (pixels.getD 0 []).length ≠ 0)
    (hl : 2 ≤ levels) (hb : BoundedM pixels) :
    ImgTool.dither_pixels pixels levels = FSSpec.ditherRef pixels levels := by
  have hh0 : pixels.length ≠ 0 := fun h0 => hh (List.length_eq_zero.mp h0)
  have hguard : ¬(pixels.length = 0 ∨ (pixels.getD 0 []).length = 0 ∨ levels < 2) := by
    push_neg
    exact ⟨hh0, hw, by omega⟩
  unfold ImgTool.dither_pixels FSSpec.ditherRef
  rw [if_neg hguard]
  unfold ImgTool.ditherLoop
  simp only [visit_eq_ditherBody]
  rw [raster_foldl
    (fun m y x => ImgTool.ditherBody (255 / ((levels : ℚ) - 1)) ((pixels.getD 0 []).length) pixels.length m y x)
    ((pixels.getD 0 []).length) (Nat.pos_of_ne_zero hw) pixels.length pixels]

/-- Witness for C1 at the 1×1 matrix `[[7]]` with 2 levels. -/
theorem dither_matches_spec_witness :
    ImgTool.dither_pixels [[7]] 2 = FSSpec.ditherRef [[7]] 2 :=
  dither_matches_spec [[7]] 2 (by simp) (by simp) (by norm_num)
    (by intro row hr v hv; simp at hr; subst hr; simp at hv; omega)

theorem clamp_bounds (v : ℚ) : 0 ≤ ImgTool.clamp v ∧ ImgTool.clamp v ≤ 255 := by
  unfold ImgTool.clamp
  split_ifs with h0 h255
  · omega
  · omega
  · have h1 : truncQ v = ⌊v⌋ := truncQ_nonneg_eq_floor v (not_lt.mp h0)
    have h2 : (0:ℤ) ≤ ⌊v⌋ := Int.floor_nonneg.mpr (not_lt.mp h0)
    have h3 : ⌊v⌋ ≤ 255 := by
      have h4 : ⌊v⌋ ≤ ⌊(255:ℚ)⌋ := Int.floor_le_floor (not_lt.mp h255)
      simpa using h4
    omega

theorem setPix_bounded {m : Mat} {v : ℤ} {y x : ℕ}
    (hm : BoundedM m) (hv : 0 ≤ v ∧ v ≤ 255) : BoundedM (setPix m y x v) := by
  intro row hrow w hw
  rcases List.mem_or_eq_of_mem_set hrow with hr | hr
  · exact hm row hr w hw
  · subst hr
    rcases List.mem_or_eq_of_mem_set hw with hw2 | hw2
    · by_cases hy : y < m.length
      · have : m.getD y [] = m[y] := List.getD_eq_getElem m [] hy
        exact hm m[y] (List.getElem_mem hy) w (this ▸ hw2)
      · rw [List.getD_eq_default m [] (le_of_not_lt hy)] at hw2
        simp at hw2
    · subst hw2; exact hv

theorem foldl_preserve {α β : Type} (P : β → Prop) (f : β → α → β) (l : List α)
    (hf : ∀ acc a, P acc → P (f acc a)) : ∀ b, P b → P (l.foldl f b) := by
  induction l with
  | nil => intro b hb; simpa using hb
  | cons a l ih => intro b hb; simpa using ih (f b a) (hf b a hb)

theorem ditherBody_bounded (stp : ℚ) (w h : ℕ) (m : Mat) (y x : ℕ)
    (hm : BoundedM m) : BoundedM (ImgTool.ditherBody stp w h m y x) := by
  unfold ImgTool.ditherBody
  split_ifs <;>
    repeat
      first
        | exact hm
        | refine setPix_bounded ?_ (clamp_bounds _)

/-- C7: for every input matrix with samples in `[0,255]` and every `levels`,
every sample of the matrix returned by `dither_pixels` lies in `[0,255]`. -/
theorem dither_bounded (pixels : Mat) (levels : ℤ) (hb : BoundedM pixels) :
    BoundedM (ImgTool.dither_pixels pixels levels) := by
  unfold ImgTool.dither_pixels
  by_cases hg : pixels.length = 0 ∨ (pixels.getD 0 []).length = 0 ∨ levels < 2
  · rw [if_pos hg]; exact hb
  · rw [if_neg hg]
    unfold ImgTool.ditherLoop
    refine foldl_preserve BoundedM _ _ ?_ pixels hb
    intro acc y hacc
    refine foldl_preserve BoundedM _ _ ?_ acc hacc
    intro acc2 x hacc2
    exact ditherBody_bounded _ _ _ acc2 y x hacc2

/-- Witness for C7 at `[[7]]`, 2 levels. -/
theorem dither_bounded_witness : BoundedM (ImgTool.dither_pixels [[7]] 2) :=
  dither_bounded [[7]] 2
    (by intro row hr v hv; simp at hr; subst hr; simp at hv; omega)

namespace HeapModel

/-- The dither loop body acting on the Python heap of list objects (row id =
position in the heap).  The list the loop writes (`out`) lives at row ids
`base + r`; the caller's matrix occupies ids below `base`.  Transcribed from
`dither_pixels`: every read/write of `out[r]` is a read/write of id
`base + r`. -/
def heapBody (stp : ℚ) (base w h : ℕ) (hp : Mat) (y x : ℕ) : Mat :=
  let old : ℤ := getPix hp (base + y) x
  let nw : ℚ := (pyRound ((old : ℚ) / stp) : ℚ) * stp
  let hp1 := setPix hp (base + y) x (ImgTool.clamp nw)
  let err : ℚ := (old : ℚ) - nw
  let hp2 :=
    if x + 1 < w then
      setPix hp1 (base + y) (x+1) (ImgTool.clamp ((getPix hp1 (base + y) (x+1) : ℚ) + err * 7 / 16))
    else hp1
  if y + 1 < h then
    let hp3 :=
      if 1 ≤ x then
        setPix hp2 (base + (y+1)) (x-1)
          (ImgTool.clamp ((getPix hp2 (base + (y+1)) (x-1) : ℚ) + err * 3 / 16))
      else hp2
    let hp4 := setPix hp3 (base + (y+1)) x
      (ImgTool.clamp ((getPix hp3 (base + (y+1)) x : ℚ) + err * 5 / 16))
    if x + 1 < w then
      setPix hp4 (base + (y+1)) (x+1)
        (ImgTool.clamp ((getPix hp4 (base + (y+1)) (x+1) : ℚ) + err * 1 / 16))
    else hp4
  else hp2

/-- Heap-level `dither_pixels`: the caller's rows occupy ids `0..h-1`; the
line `out = [row[:] for row in pixels]` allocates fresh row copies at ids
`h..2h-1` (had the source aliased the rows instead of copying them with
`row[:]`, `out` would reuse ids `0..h-1`), and the loop then reads and
writes only the `out` ids. -/
def heapDither (pixels : Mat) (levels : ℤ) : Mat :=
  let h := pixels.length
  let w := (pixels.getD 0 []).length
  if h = 0 ∨ w = 0 ∨ levels < 2 then pixels
  else
    (List.range h).foldl
      (fun acc y => (List.range w).foldl
        (fun acc2 x => heapBody (255 / ((levels : ℚ) - 1)) h w h acc2 y x) acc)
      (pixels ++ pixels)

end HeapModel

theorem getPix_append (l1 l2 : Mat) (n x : ℕ) :
    getPix (l1 ++ l2) (l1.length + n) x = getPix l2 n x := by
  unfold getPix
  rw [List.getD_append_right _ _ _ _ (Nat.le_add_right _ _)]
  congr 2
  omega

theorem setPix_append (l1 l2 : Mat) (n x : ℕ) (v : ℤ) :
    setPix (l1 ++ l2) (l1.length + n) x v = l1 ++ setPix l2 n x v := by
  unfold setPix
  rw [List.getD_append_right _ _ _ _ (Nat.le_add_right _ _), List.set_append,
    if_neg (by omega)]
  have h1 : l1.length + n - l1.length = n := by omega
  rw [h1]

theorem heapBody_append (stp : ℚ) (w h : ℕ) (l1 out : Mat) (y x : ℕ) :
    HeapModel.heapBody stp l1.length w h (l1 ++ out) y x =
      l1 ++ ImgTool.ditherBody stp w h out y x := by
  unfold HeapModel.heapBody ImgTool.ditherBody
  split_ifs <;> simp only [getPix_append, setPix_append]

theorem foldl_append_lift {α : Type} (f g : Mat → α → Mat) (l1 : Mat)
    (hfg : ∀ acc a, g (l1 ++ acc) a = l1 ++ f acc a) :
    ∀ (l : List α) (acc : Mat), l.foldl g (l1 ++ acc) = l1 ++ l.foldl f acc := by
  intro l
  induction l with
  | nil => intro acc; simp
  | cons a t ih => intro acc; rw [List.foldl_cons, List.foldl_cons, hfg]; exact ih (f acc a)

theorem heapDither_eq_append (pixels : Mat) (levels : ℤ)
    (hg : ¬(pixels.length = 0 ∨ (pixels.getD 0 []).length = 0 ∨ levels < 2)) :
    HeapModel.heapDither pixels levels =
      pixels ++ ImgTool.ditherLoop (255 / ((levels : ℚ) - 1))
        ((pixels.getD 0 []).length) pixels.length pixels := by
  unfold HeapModel.heapDither
  rw [if_neg hg]
  unfold ImgTool.ditherLoop
  exact foldl_append_lift _ _ pixels
    (fun acc y => foldl_append_lift _ _ pixels
      (fun acc2 x => heapBody_append _ _ _ pixels acc2 y x) (List.range _) acc)
    (List.range pixels.length) pixels

/-- C8: `dither_pixels` never mutates its argument.  In the heap model (row
id = heap position; caller's rows at ids `0..h-1`, the `row[:]` copies at
ids `h..2h-1`, all loop writes addressed to the copy ids), after the call
every input row id still holds exactly the values it held before. -/
theorem dither_no_mutation (pixels : Mat) (levels : ℤ) (i : ℕ)
    (hi : i < pixels.length) :
    (HeapModel.heapDither pixels levels).getD i [] = pixels.getD i [] := by
  by_cases hg : pixels.length = 0 ∨ (pixels.getD 0 []).length = 0 ∨ levels < 2
  · unfold HeapModel.heapDither
    rw [if_pos hg]
  · rw [heapDither_eq_append pixels levels hg, List.getD_append _ _ _ _ hi]

/-- Witness for C8: the input row of `[[7]]` is unchanged by the call. -/
theorem dither_no_mutation_witness :
    (HeapModel.heapDither [[7]] 2).getD 0 [] = [[7]].getD 0 [] :=
  dither_no_mutation [[7]] 2 0 (by simp)

/-- C9: the stage functions duplicated across the two tools compute the same
functions: the dither and render stages are pointwise identical, and the
image tool's resize is the video tool's resize applied at ratio 0.43. -/
theorem duplicated_tools_agree :
    ImgTool.dither_pixels = VidTool.dither_pixels ∧
    ImgTool.map_to_ascii = VidTool.map_to_ascii ∧
    ImgTool.resize_pixels = fun pixels w => VidTool.resize_pixels pixels w (43/100) :=
  ⟨rfl, rfl, rfl⟩

/-- C4 counterexample: with the empty matrix and a palette of length 0 (< 2),
`map_to_ascii` returns an empty line list instead of failing, because the
emptiness check precedes the palette-length check. -/
theorem render_short_palette_counterexample :
    ImgTool.map_to_ascii powOne [] [] 1 false false = .ok [] := rfl

/-- C4 amended: for every matrix with at least one row and every palette of
length < 2, `map_to_ascii` fails with the invalid-argument error. -/
theorem render_short_palette (fpow : ℚ → ℚ → ℚ) (pixels : Mat) (charset : List Char)
    (gamma : ℚ) (invert dither : Bool)
    (hne : pixels ≠ []) (hc : charset.length < 2) :
    ImgTool.map_to_ascii fpow pixels charset gamma invert dither =
      .error "charset minimal 2 karakter" := by
  unfold ImgTool.map_to_ascii
  rw [if_neg (fun h0 => hne (List.length_eq_zero.mp h0)), if_pos hc]

/-- Witness for C4 (amended) at `[[0]]` with a 1-glyph palette. -/
theorem render_short_palette_witness :
    ImgTool.map_to_ascii powOne [[0]] [' '] 1 false false =
      .error "charset minimal 2 karakter" :=
  render_short_palette powOne [[0]] [' '] 1 false false (by simp) (by simp)

/-- C10 counterexample: `[[]]` is an empty matrix in the spec's sense
(width 0, height 1), yet with a length-1 palette `map_to_ascii` raises the
palette error instead of returning the empty sequence: the emptiness check
only tests for zero rows. -/
theorem render_empty_counterexample :
    ImgTool.map_to_ascii powOne [[]] [' '] 1 false false =
      .error "charset minimal 2 karakter" := rfl

/-- C10 amended: if the matrix has no rows, `map_to_ascii` returns the empty
sequence of lines for every charset (including length 0 or 1, with no error
raised), gamma, invert and dither setting, because the row-emptiness check
precedes the palette-length check. -/
theorem render_no_rows (fpow : ℚ → ℚ → ℚ) (charset : List Char) (gamma : ℚ)
    (invert dither : Bool) :
    ImgTool.map_to_ascii fpow [] charset gamma invert dither = .ok [] := rfl

theorem fpow_congr_map (fpow gpow : ℚ → ℚ → ℚ) (pixels : Mat) (charset : List Char)
    (gamma : ℚ) (invert dither : Bool)
    (hfg : ∀ v, fpow v gamma = gpow v gamma) :
    ImgTool.map_to_ascii fpow pixels charset gamma invert dither =
      ImgTool.map_to_ascii gpow pixels charset gamma invert dither := by
  unfold ImgTool.map_to_ascii ImgTool.pixelIdx ImgTool.pixelVal
  simp only [hfg]

/-- C3 counterexample: in the end-to-end scenario (2×2 matrix
`[[0,255],[128,128]]`, width 2, ratio 1, default palette, gamma 1, no
dither/invert) the second rendered line is `"=="`, not `"++"`: the code
truncates `128/255·9 ≈ 4.52` with `int()` to glyph index 4 (`'='`) instead
of rounding to 5 (`'+'`). -/
theorem render_scenario_counterexample :
    VidTool.resize_pixels [[0,255],[128,128]] 2 1 = .ok [[0,255],[128,128]] ∧
    ImgTool.map_to_ascii powOne [[0,255],[128,128]] defaultCharset 1 false false =
      .ok [" @", "=="] ∧
    ([" @", "=="] : List String) ≠ [" @", "++"] :=
  ⟨by with_unfolding_all rfl, by with_unfolding_all rfl, by decide⟩

/-- C3 amended: the scenario's resample is the identity and render returns
the lines `" @"` and `"=="` (the second line being the glyph at index
`int(128/255·9) = 4`, `'='`, twice), for any model of `pow` that fixes
`pow(v, 1.0) = v`. -/
theorem render_scenario (fpow : ℚ → ℚ → ℚ) (hp : ∀ v, fpow v 1 = v) :
    VidTool.resize_pixels [[0,255],[128,128]] 2 1 = .ok [[0,255],[128,128]] ∧
    ImgTool.map_to_ascii fpow [[0,255],[128,128]] defaultCharset 1 false false =
      .ok [" @", "=="] := by
  constructor
  · with_unfolding_all rfl
  · rw [fpow_congr_map fpow powOne [[0,255],[128,128]] defaultCharset 1 false false
      (fun v => hp v)]
    with_unfolding_all rfl

/-- Witness for C3 (amended) with the exact model of `pow` at gamma 1. -/
theorem render_scenario_witness :
    VidTool.resize_pixels [[0,255],[128,128]] 2 1 = .ok [[0,255],[128,128]] ∧
    ImgTool.map_to_ascii powOne [[0,255],[128,128]] defaultCharset 1 false false =
      .ok [" @", "=="] :=
  render_scenario powOne (fun v => rfl)

/-- C6: `resize_pixels` fails with the invalid-argument error iff
`targetWidth < 1`; for `targetWidth ≥ 1` an empty source matrix (no rows, or
width 0) returns the empty matrix rather than failing. -/
theorem resize_error_iff (pixels : Mat) (w : ℤ) (hrect : Rect pixels) :
    ((∃ e, ImgTool.resize_pixels pixels w = .error e) ↔ w < 1) ∧
    (1 ≤ w → (pixels.length = 0 ∨ (pixels.getD 0 []).length = 0) →
      ImgTool.resize_pixels pixels w = .ok []) := by
  constructor
  · constructor
    · rintro ⟨e, he⟩
      by_contra hw
      unfold ImgTool.resize_pixels at he
      rw [if_neg hw] at he
      by_cases hz : ((if pixels.length > 0 then (pixels.getD 0 []).length else 0) = 0 ∨
          pixels.length = 0)
      · rw [if_pos hz] at he
        exact Except.noConfusion he
      · rw [if_neg hz] at he
        exact Except.noConfusion he
    · intro hw
      unfold ImgTool.resize_pixels
      rw [if_pos hw]
      exact ⟨"new_width minimal 1", rfl⟩
  · intro hw hempty
    unfold ImgTool.resize_pixels
    rw [if_neg (by omega : ¬ w < 1)]
    have hz : ((if pixels.length > 0 then (pixels.getD 0 []).length else 0) = 0 ∨
        pixels.length = 0) := by
      rcases hempty with h | h
      · right; exact h
      · by_cases hp : pixels.length > 0
        · left; rw [if_pos hp]; exact h
        · left; rw [if_neg hp]
    rw [if_pos hz]

/-- Witness for C6 at the 1×1 matrix `[[1]]` with target width 2. -/
theorem resize_error_iff_witness :
    ((∃ e, ImgTool.resize_pixels [[1]] 2 = .error e) ↔ (2:ℤ) < 1) ∧
    ((1:ℤ) ≤ 2 → ([[1]] : Mat).length = 0 ∨ (([[1]] : Mat).getD 0 []).length = 0 →
      ImgTool.resize_pixels [[1]] 2 = .ok []) :=
  resize_error_iff [[1]] 2 (by intro row hr; simp at hr; subst hr; rfl)

theorem truncQ_mono {u v : ℚ} (huv : u ≤ v) : truncQ u ≤ truncQ v := by
  unfold truncQ
  by_cases hu : u < 0
  · rw [if_pos hu]
    by_cases hv : v < 0
    · rw [if_pos hv]
      have h := Int.floor_le_floor (neg_le_neg huv)
      omega
    · rw [if_neg hv]
      have h1 : (0:ℤ) ≤ ⌊-u⌋ := Int.floor_nonneg.mpr (by linarith)
      have h2 : (0:ℤ) ≤ ⌊v⌋ := Int.floor_nonneg.mpr (not_lt.mp hv)
      omega
  · rw [if_neg hu]
    have hv : ¬ v < 0 := fun h => hu (lt_of_le_of_lt huv h)
    rw [if_neg hv]
    exact Int.floor_le_floor huv

/-- C5 counterexample: with `invert = true` the glyph mapping is antitone,
not monotone: samples `0 ≤ 255` get indices `9 > 0` (gamma 1, 10-glyph
palette). -/
theorem pixelIdx_mono_counterexample :
    (0:ℤ) ≤ 255 ∧
    ¬ ImgTool.pixelIdx powOne 10 1 true 0 ≤ ImgTool.pixelIdx powOne 10 1 true 255 :=
  ⟨by decide, by with_unfolding_all decide⟩

/-- C5 amended: with `invert = false`, fixed gamma and a palette of length
≥ 2, the per-sample glyph mapping of `map_to_ascii` is monotone in the
sample, for any model of `pow` that is monotone on `[0,1]` in its base at
the given exponent (true of the real and IEEE power for gamma > 0). -/
theorem pixelIdx_mono (fpow : ℚ → ℚ → ℚ) (gamma : ℚ) (n : ℕ) (a b : ℤ)
    (hmono : ∀ u v : ℚ, 0 ≤ u → u ≤ v → v ≤ 1 → fpow u gamma ≤ fpow v gamma)
    (hn : 2 ≤ n) (ha : 0 ≤ a) (hab : a ≤ b) (hb : b ≤ 255) :
    ImgTool.pixelIdx fpow n gamma false a ≤ ImgTool.pixelIdx fpow n gamma false b := by
  have ha' : (0:ℚ) ≤ (a:ℚ) := by exact_mod_cast ha
  have hab' : (a:ℚ) ≤ (b:ℚ) := by exact_mod_cast hab
  have hb' : (b:ℚ) ≤ 255 := by exact_mod_cast hb
  have hval : ImgTool.pixelVal fpow gamma false a ≤ ImgTool.pixelVal fpow gamma false b := by
    unfold ImgTool.pixelVal
    dsimp only
    rw [if_neg Bool.false_ne_true, if_neg Bool.false_ne_true]
    split_ifs with hg
    · exact hmono _ _ (by linarith) (by linarith) (by linarith)
    · linarith
  have hn' : (0:ℚ) ≤ (n:ℚ) - 1 := by
    have : (2:ℚ) ≤ (n:ℚ) := by exact_mod_cast hn
    linarith
  have hAB := truncQ_mono (mul_le_mul_of_nonneg_right hval hn')
  unfold ImgTool.pixelIdx
  dsimp only
  split_ifs <;> omega

/-- Witness for C5 (amended): samples 0 and 128, gamma 1, default palette
size, exact pow model. -/
theorem pixelIdx_mono_witness :
    ImgTool.pixelIdx powOne 10 1 false 0 ≤ ImgTool.pixelIdx powOne 10 1 false 128 :=
  pixelIdx_mono powOne 1 10 0 128 (fun u v _ h _ => h)
    (by decide) (by decide) (by decide) (by decide)

/-- The destination height computed by `resize_pixels`:
`max(1, int(orig_h * (new_width/orig_w) * ratio))`. -/
def rsHeight (pixels : Mat) (w : ℤ) (ratio : ℚ) : ℕ :=
  max 1 (truncQ ((pixels.length : ℚ) * ((w : ℚ) / ((pixels.getD 0 []).length : ℚ)) * ratio)).toNat

/-- The source row `resize_pixels` samples for destination row `y`. -/
def srcY (pixels : Mat) (w : ℤ) (ratio : ℚ) (y : ℕ) : ℕ :=
  min (pixels.length - 1)
    (truncQ ((y : ℚ) / (rsHeight pixels w ratio : ℚ) * (pixels.length : ℚ))).toNat

/-- The source column `resize_pixels` samples for destination column `x`. -/
def srcX (pixels : Mat) (w : ℤ) (x : ℕ) : ℕ :=
  min ((pixels.getD 0 []).length - 1)
    (truncQ ((x : ℚ) / (w : ℚ) * ((pixels.getD 0 []).length : ℚ))).toNat

theorem getPix_map_map (hgt wd : ℕ) (f : ℕ → ℕ → ℤ) (y x : ℕ)
    (hy : y < hgt) (hx : x < wd) :
    getPix ((List.range hgt).map (fun r => (List.range wd).map (fun c => f r c))) y x
      = f y x := by
  unfold getPix
  rw [List.getD_eq_getElem ((List.range hgt).map _) [] (by simpa using hy),
    List.getElem_map, List.getElem_range,
    List.getD_eq_getElem _ 0 (by simpa using hx),
    List.getElem_map, List.getElem_range]

theorem resize_pixels_eq (pixels : Mat) (w : ℤ) (ratio : ℚ)
    (hw : ¬ w < 1) (hne : pixels ≠ []) (hrow : (pixels.getD 0 []).length ≠ 0) :
    VidTool.resize_pixels pixels w ratio =
      .ok ((List.range (rsHeight pixels w ratio)).map (fun y =>
        (List.range w.toNat).map (fun x =>
          getPix pixels (srcY pixels w ratio y) (srcX pixels w x)))) := by
  have hpos : pixels.length > 0 := List.length_pos.mpr hne
  unfold VidTool.resize_pixels
  rw [if_neg hw]
  dsimp only
  rw [if_pos hpos,
    if_neg (by push_neg; exact ⟨hrow, by omega⟩ :
      ¬((pixels.getD 0 []).length = 0 ∨ pixels.length = 0))]
  unfold rsHeight srcY srcX
  rfl

/-- C2: for a non-empty rectangular source, `targetWidth ≥ 1` and
`aspectRatio > 0`, resample returns a matrix of width `targetWidth` and
height `max(1, floor(srcH · (targetWidth/srcW) · ratio))`, each destination
cell `(x,y)` holding the source sample at
`srcY = min(srcH-1, floor(y/dstH · srcH))`,
`srcX = min(srcW-1, floor(x/targetWidth · srcW))`; in particular every
output sample is a sample of the source. -/
theorem resize_spec (pixels : Mat) (w : ℤ) (ratio : ℚ)
    (hw : 1 ≤ w) (hr : 0 < ratio) (hne : pixels ≠ [])
    (hrow : (pixels.getD 0 []).length ≠ 0) (hrect : Rect pixels) :
    ∃ r, VidTool.resize_pixels pixels w ratio = .ok r ∧
      (r.length : ℤ) =
        max 1 ⌊(pixels.length : ℚ) * ((w : ℚ) / ((pixels.getD 0 []).length : ℚ)) * ratio⌋ ∧
      (∀ row ∈ r, row.length = w.toNat) ∧
      (∀ y x : ℕ, y < r.length → x < w.toNat →
        getPix r y x = getPix pixels
          (min (pixels.length - 1) (⌊(y : ℚ) / (r.length : ℚ) * (pixels.length : ℚ)⌋).toNat)
          (min ((pixels.getD 0 []).length - 1)
            (⌊(x : ℚ) / (w : ℚ) * ((pixels.getD 0 []).length : ℚ)⌋).toNat)) ∧
      (∀ row ∈ r, ∀ v ∈ row, ∃ srow ∈ pixels, v ∈ srow) := by
  have hw0 : (0:ℚ) ≤ (w : ℚ) := by exact_mod_cast (by omega : (0:ℤ) ≤ w)
  have hpos : 0 < pixels.length := List.length_pos.mpr hne
  refine ⟨_, resize_pixels_eq pixels w ratio (by omega) hne hrow, ?_, ?_, ?_, ?_⟩
  · -- height formula
    have hprod : (0:ℚ) ≤
        (pixels.length : ℚ) * ((w : ℚ) / ((pixels.getD 0 []).length : ℚ)) * ratio :=
      mul_nonneg (mul_nonneg (by positivity) (div_nonneg hw0 (by positivity)))
        (le_of_lt hr)
    simp only [List.length_map, List.length_range]
    unfold rsHeight
    rw [truncQ_nonneg_eq_floor _ hprod]
    generalize ⌊(pixels.length : ℚ) * ((w : ℚ) / ((pixels.getD 0 []).length : ℚ)) * ratio⌋ = t
    omega
  · intro row hrow2
    rw [List.mem_map] at hrow2
    obtain ⟨y, _, rfl⟩ := hrow2
    simp
  · intro y x hy hx
    simp only [List.length_map, List.length_range] at hy ⊢
    have hyfloor : (0:ℚ) ≤ (y : ℚ) / ((rsHeight pixels w ratio : ℕ) : ℚ) * (pixels.length : ℚ) := by
      positivity
    have hxfloor : (0:ℚ) ≤ (x : ℚ) / (w : ℚ) * ((pixels.getD 0 []).length : ℚ) := by
      rcases eq_or_lt_of_le hw0 with h | h
      · rw [← h]; simp
      · positivity
    rw [getPix_map_map _ _ _ y x hy hx]
    unfold srcY srcX
    rw [truncQ_nonneg_eq_floor _ hyfloor, truncQ_nonneg_eq_floor _ hxfloor]
  · intro row hrow2 v hv
    rw [List.mem_map] at hrow2
    obtain ⟨y, _, rfl⟩ := hrow2
    rw [List.mem_map] at hv
    obtain ⟨x, _, rfl⟩ := hv
    have hsy : srcY pixels w ratio y < pixels.length := by
      have h1 : srcY pixels w ratio y ≤ pixels.length - 1 := min_le_left _ _
      omega
    have hrowmem : pixels.getD (srcY pixels w ratio y) [] ∈ pixels := by
      rw [List.getD_eq_getElem _ _ hsy]
      exact List.getElem_mem hsy
    refine ⟨pixels.getD (srcY pixels w ratio y) [], hrowmem, ?_⟩
    have hlenrow : (pixels.getD (srcY pixels w ratio y) []).length =
        (pixels.getD 0 []).length := hrect _ hrowmem
    have hsx : srcX pixels w x < (pixels.getD (srcY pixels w ratio y) []).length := by
      rw [hlenrow]
      have h1 : srcX pixels w x ≤ (pixels.getD 0 []).length - 1 := min_le_left _ _
      omega
    unfold getPix
    rw [List.getD_eq_getElem _ _ hsx]
    exact List.getElem_mem hsx

/-- Witness for C2 at the 2×2 matrix, width 2, ratio 1. -/
theorem resize_spec_witness :
    ∃ r, VidTool.resize_pixels [[0,255],[128,128]] 2 1 = .ok r ∧
      (r.length : ℤ) =
        max 1 ⌊(([[0,255],[128,128]] : Mat).length : ℚ) *
          ((2 : ℚ) / ((([[0,255],[128,128]] : Mat).getD 0 []).length : ℚ)) * 1⌋ ∧
      (∀ row ∈ r, row.length = (2:ℤ).toNat) ∧
      (∀ y x : ℕ, y < r.length → x < (2:ℤ).toNat →
        getPix r y x = getPix [[0,255],[128,128]]
          (min (([[0,255],[128,128]] : Mat).length - 1)
            (⌊(y : ℚ) / (r.length : ℚ) * (([[0,255],[128,128]] : Mat).length : ℚ)⌋).toNat)
          (min ((([[0,255],[128,128]] : Mat).getD 0 []).length - 1)
            (⌊(x : ℚ) / (2 : ℚ) * ((([[0,255],[128,128]] : Mat).getD 0 []).length : ℚ)⌋).toNat)) ∧
      (∀ row ∈ r, ∀ v ∈ row, ∃ srow ∈ ([[0,255],[128,128]] : Mat), v ∈ srow) :=
  resize_spec [[0,255],[128,128]] 2 1 (by decide) (by norm_num) (by simp)
    (by simp) (by intro row hr; simp at hr; rcases hr with h | h <;> subst h <;> decide)

